import Mathlib

set_option maxRecDepth 100000

/-!
Shallow embedding of `src/color_analysis.py` (color-analysis tool).

Conventions of the embedding:

* Python integers become `Nat`/`Int`.
* Python floats are modelled as exact fractions (`Frac`, an unreduced
  `Int × Int` fraction with positive denominator, fully kernel-computable).
  For every code path whose claims are insensitive to double-precision
  round-off (HSV conversion used only for ordering and for the harmony
  structure) the float arithmetic is modelled as exact rational arithmetic.
  For `rgb_to_cmyk`, where a claim hinges on the precise rounding of the
  computed value, every individual float operation is modelled as the exact
  result rounded to the nearest IEEE-754 binary64 value (`fl` below), which
  is precisely what CPython's correctly-rounded float operations do on the
  magnitudes that occur here (no overflow/underflow/subnormals arise).
* Python exceptions become `Option` (`none` = the call raises).
* `Counter(...)` and Python's stable sorts are modelled by first-occurrence
  tallying and stable insertion sort (a stable sort by a total preorder is
  unique as a function, so insertion sort is extensionally the same function
  as Timsort).
-/

/-- Unreduced fraction `n / d`.  All constructions below keep `d > 0`. -/
structure Frac where
  n : Int
  d : Int
deriving DecidableEq

def Frac.ofInt (k : Int) : Frac := ⟨k, 1⟩

instance : OfNat Frac k where
  ofNat := Frac.ofInt k

def Frac.add (a b : Frac) : Frac := ⟨a.n * b.d + b.n * a.d, a.d * b.d⟩

def Frac.sub (a b : Frac) : Frac := ⟨a.n * b.d - b.n * a.d, a.d * b.d⟩

def Frac.mul (a b : Frac) : Frac := ⟨a.n * b.n, a.d * b.d⟩

def Frac.neg (a : Frac) : Frac := ⟨-a.n, a.d⟩

/-- Reciprocal, sign moved to the numerator so the denominator stays
positive.  Division by zero never occurs on the executed paths. -/
def Frac.inv (a : Frac) : Frac :=
  if a.n = 0 then ⟨0, 1⟩
  else if a.n < 0 then ⟨-a.d, -a.n⟩
  else ⟨a.d, a.n⟩

def Frac.div (a b : Frac) : Frac := a.mul b.inv

/-- Value comparison (cross multiplication; valid because `d > 0`). -/
def Frac.ble (a b : Frac) : Bool := decide (a.n * b.d ≤ b.n * a.d)

def Frac.blt (a b : Frac) : Bool := decide (a.n * b.d < b.n * a.d)

/-- Value equality (cross multiplication; valid because `d > 0`). -/
def Frac.beq (a b : Frac) : Bool := decide (a.n * b.d = b.n * a.d)

/-- Python's `max` on two floats. -/
def Frac.fmax (a b : Frac) : Frac := if Frac.ble b a then a else b

/-- Python's `min` on two floats. -/
def Frac.fmin (a b : Frac) : Frac := if Frac.ble a b then a else b

/-- Floor of the fraction's value (`Int./` is Euclidean division, which is
floor division for the positive denominators maintained here). -/
def Frac.floor (a : Frac) : Int := a.n / a.d

/-- Python `int(x)`: truncation toward zero. -/
def pyInt (a : Frac) : Int :=
  if a.blt (Frac.ofInt 0) then -(Frac.floor a.neg) else Frac.floor a

/-- Python `x % m` on floats (sign of the divisor; exact value
`x - m*floor(x/m)`). -/
def Frac.pymod (a m : Frac) : Frac :=
  a.sub (m.mul (Frac.ofInt ((a.div m).floor)))

/-- Rational value of a fraction, for spec-level statements. -/
def Frac.toRat (a : Frac) : ℚ := (a.n : ℚ) / (a.d : ℚ)

/-- Round half to even (Python 3 `round` on the exact value of a float). -/
def rne (a : Frac) : Int :=
  let f := a.floor
  let r := a.sub (Frac.ofInt f)
  if r.blt ⟨1, 2⟩ then f
  else if Frac.blt ⟨1, 2⟩ r then f + 1
  else if f % 2 = 0 then f else f + 1

/-- Number of binary digits of `n` (fuel-driven so that it reduces in the
kernel; fuel 400 covers every magnitude reached in this development). -/
def bitLenF : Nat → Nat → Nat
  | 0, _ => 0
  | f + 1, n => if n = 0 then 0 else bitLenF f (n / 2) + 1

def bitLen (n : Nat) : Nat := bitLenF 400 n

def pow2 : Int → Frac
  | Int.ofNat k => ⟨2 ^ k, 1⟩
  | Int.negSucc k => ⟨1, 2 ^ (k + 1)⟩

/-- `⌊log₂ a⌋` for a positive fraction. -/
def expOf (a : Frac) : Int :=
  let e0 : Int := (bitLen a.n.toNat : Int) - (bitLen a.d.toNat : Int)
  if (pow2 e0).ble a then e0 else e0 - 1

/-- Round a positive value to the nearest IEEE-754 binary64 (53-bit
significand, round to nearest, ties to even; the exponent range is never
exceeded by the values arising here). -/
def flPos (a : Frac) : Frac :=
  let e := expOf a
  (Frac.ofInt (rne (a.mul (pow2 (52 - e))))).mul (pow2 (e - 52))

/-- Correctly rounded binary64 value of an exact rational: the result of a
single CPython float operation whose exact result is `a`. -/
def fl (a : Frac) : Frac :=
  if a.beq (Frac.ofInt 0) then Frac.ofInt 0
  else if a.blt (Frac.ofInt 0) then (flPos a.neg).neg
  else flPos a

/-! ## colorsys (CPython standard library), exact-rational model -/

/-- `colorsys.rgb_to_hsv` (source transcribed from CPython's colorsys). -/
def rgb_to_hsv (r g b : Frac) : Frac × Frac × Frac :=
  let maxc := (r.fmax g).fmax b
  let minc := (r.fmin g).fmin b
  let rangec := maxc.sub minc
  let v := maxc
  if minc.beq maxc then (Frac.ofInt 0, Frac.ofInt 0, v)
  else
    let s := rangec.div maxc
    let rc := (maxc.sub r).div rangec
    let gc := (maxc.sub g).div rangec
    let bc := (maxc.sub b).div rangec
    let h :=
      if r.beq maxc then bc.sub gc
      else if g.beq maxc then (Frac.ofInt 2).add (rc.sub bc)
      else (Frac.ofInt 4).add (gc.sub rc)
    ((h.div (Frac.ofInt 6)).pymod (Frac.ofInt 1), s, v)

/-- `colorsys.hsv_to_rgb` (source transcribed from CPython's colorsys). -/
def hsv_to_rgb (h s v : Frac) : Frac × Frac × Frac :=
  if s.beq (Frac.ofInt 0) then (v, v, v)
  else
    let i0 := pyInt (h.mul (Frac.ofInt 6))
    let f := (h.mul (Frac.ofInt 6)).sub (Frac.ofInt i0)
    let p := v.mul ((Frac.ofInt 1).sub s)
    let q := v.mul ((Frac.ofInt 1).sub (s.mul f))
    let t := v.mul ((Frac.ofInt 1).sub (s.mul ((Frac.ofInt 1).sub f)))
    let i := i0 % 6
    if i = 0 then (v, t, p)
    else if i = 1 then (q, v, p)
    else if i = 2 then (p, v, t)
    else if i = 3 then (p, q, v)
    else if i = 4 then (t, p, v)
    else (v, p, q)

/-! ## ColorConverter -/

def hexDigitVal (c : Char) : Option Nat :=
  if '0' ≤ c ∧ c ≤ '9' then some (c.toNat - 48)
  else if 'a' ≤ c ∧ c ≤ 'f' then some (c.toNat - 87)
  else if 'A' ≤ c ∧ c ≤ 'F' then some (c.toNat - 55)
  else none

/-- `c` is one of the characters `int(·, 16)` accepts as a digit. -/
def hexDigitB (c : Char) : Bool := (hexDigitVal c).isSome

/-- `c` is a lowercase hex digit (`0`–`9` or `a`–`f`). -/
def lowHexB (c : Char) : Bool :=
  decide (('0' ≤ c ∧ c ≤ '9') ∨ ('a' ≤ c ∧ c ≤ 'f'))

def hexCore : List Char → Nat → Option Nat
  | [], acc => some acc
  | c :: t, acc =>
    match hexDigitVal c with
    | none => none
    | some v => hexCore t (16 * acc + v)

def hexDigits? : List Char → Option Nat
  | [] => none
  | l => hexCore l 0

def wsChar (c : Char) : Bool := c.isWhitespace

def trimWS (l : List Char) : List Char :=
  ((l.dropWhile wsChar).reverse.dropWhile wsChar).reverse

/-- Python `int(s, 16)` restricted to strings of length ≤ 2, the only
lengths `hex_to_rgb` ever passes: optional surrounding whitespace, optional
sign, then a non-empty run of hex digits.  (The `0x` prefix and `_`
separators that full `int(·, 16)` also accepts need at least three
characters to parse differently, so they cannot occur here.) -/
def pyIntHex (l : List Char) : Option Int :=
  match trimWS l with
  | '+' :: t => (hexDigits? t).map (fun v : Nat => (v : Int))
  | '-' :: t => (hexDigits? t).map (fun v : Nat => -(v : Int))
  | t => (hexDigits? t).map (fun v : Nat => (v : Int))

/-- Python string slicing `l[i : i+k]`. -/
def pySlice (l : List Char) (i k : Nat) : List Char := (l.drop i).take k

/-- The generator `tuple(int(hex_color[i:i+2], 16) for i in (0, 2, 4))`:
the three two-character slices at 0, 2, 4 are parsed with `int(·, 16)`;
a `ValueError` from any slice (modelled as `none`) aborts the call. -/
def hexTriple (t : List Char) : Option (Int × Int × Int) :=
  match pyIntHex (pySlice t 0 2), pyIntHex (pySlice t 2 2), pyIntHex (pySlice t 4 2) with
  | some r, some g, some b => some (r, g, b)
  | _, _, _ => none

/-- `ColorConverter.hex_to_rgb`: `hex_color.lstrip('#')` removes *every*
leading `'#'`, then the three 2-character groups are parsed. -/
def hex_to_rgb (s : List Char) : Option (Int × Int × Int) :=
  hexTriple (s.dropWhile (fun c => c = '#'))

def hexChar (v : Nat) : Char :=
  if v < 10 then Char.ofNat (48 + v) else Char.ofNat (87 + v)

/-- Lowercase hex digits of `n`, most significant first (fuel-driven). -/
def hexNatF : Nat → Nat → List Char
  | 0, _ => []
  | f + 1, n => if n < 16 then [hexChar n] else hexNatF f (n / 16) ++ [hexChar (n % 16)]

def hexNat (n : Nat) : List Char := hexNatF (n + 1) n

/-- Python `"{:02x}".format(n)`: lowercase hex, zero-padded to width 2. -/
def pad2hex (n : Nat) : List Char :=
  let l := hexNat n
  if l.length = 1 then '0' :: l else l

/-- `ColorConverter.rgb_to_hex`: `"#{:02x}{:02x}{:02x}".format(*rgb)`. -/
def rgb_to_hex (rgb : Nat × Nat × Nat) : List Char :=
  '#' :: (pad2hex rgb.1 ++ pad2hex rgb.2.1 ++ pad2hex rgb.2.2)

/-- `ColorConverter.rgb_to_cmyk`, with every float operation modelled as a
correctly rounded binary64 operation (`fl`), and Python 3 `round` as
round-half-to-even (`rne`) on the exact value of the computed double. -/
def rgb_to_cmyk (r g b : Nat) : Int × Int × Int × Int :=
  if r = 0 ∧ g = 0 ∧ b = 0 then (0, 0, 0, 100)
  else
    let c := fl ((Frac.ofInt 1).sub (fl ((Frac.ofInt r).div (Frac.ofInt 255))))
    let m := fl ((Frac.ofInt 1).sub (fl ((Frac.ofInt g).div (Frac.ofInt 255))))
    let y := fl ((Frac.ofInt 1).sub (fl ((Frac.ofInt b).div (Frac.ofInt 255))))
    let k := c.fmin (m.fmin y)
    if k.beq (Frac.ofInt 1) then (0, 0, 0, 100)
    else
      let c2 := fl ((fl (c.sub k)).div (fl ((Frac.ofInt 1).sub k)))
      let m2 := fl ((fl (m.sub k)).div (fl ((Frac.ofInt 1).sub k)))
      let y2 := fl ((fl (y.sub k)).div (fl ((Frac.ofInt 1).sub k)))
      (rne (fl (c2.mul (Frac.ofInt 100))),
       rne (fl (m2.mul (Frac.ofInt 100))),
       rne (fl (y2.mul (Frac.ofInt 100))),
       rne (fl (k.mul (Frac.ofInt 100))))

/-- The exact (infinite-precision) percentages the CMYK formula of
`rgb_to_cmyk` denotes on the non-black branch, used to state what the exact
value of a channel is before any floating-point effect. -/
def cmyk_exact_percent (r g b : Nat) : ℚ × ℚ × ℚ × ℚ :=
  let c : ℚ := 1 - (r : ℚ) / 255
  let m : ℚ := 1 - (g : ℚ) / 255
  let y : ℚ := 1 - (b : ℚ) / 255
  let k : ℚ := min c (min m y)
  (100 * ((c - k) / (1 - k)), 100 * ((m - k) / (1 - k)),
   100 * ((y - k) / (1 - k)), 100 * k)

/-! ## ColorHarmony -/

structure Harmonies where
  complementary : List (Int × Int × Int)
  analogous : List (Int × Int × Int)
  triadic : List (Int × Int × Int)
  tetradic : List (Int × Int × Int)
deriving DecidableEq

/-- Convert one derived HSV triple (hue in degrees) back to RGB exactly as
the dict comprehension in `find_harmonies` does:
`tuple(int(x * 255) for x in colorsys.hsv_to_rgb(h / 360, s, v))`. -/
def hsvDegToRgb (hsv : Frac × Frac × Frac) : Int × Int × Int :=
  let c := hsv_to_rgb (hsv.1.div (Frac.ofInt 360)) hsv.2.1 hsv.2.2
  (pyInt (c.1.mul (Frac.ofInt 255)),
   pyInt (c.2.1.mul (Frac.ofInt 255)),
   pyInt (c.2.2.mul (Frac.ofInt 255)))

/-- `ColorHarmony.find_harmonies`: HSV of the base (hue scaled to degrees),
the four hue-rotation lists, then conversion of every entry back to RGB. -/
def find_harmonies (base : Nat × Nat × Nat) : Harmonies :=
  let hsv := rgb_to_hsv ((Frac.ofInt base.1).div (Frac.ofInt 255))
      ((Frac.ofInt base.2.1).div (Frac.ofInt 255))
      ((Frac.ofInt base.2.2).div (Frac.ofInt 255))
  let h := hsv.1.mul (Frac.ofInt 360)
  let s := hsv.2.1
  let v := hsv.2.2
  { complementary := [((h.add (Frac.ofInt 180)).pymod (Frac.ofInt 360), s, v)].map hsvDegToRgb
    analogous :=
      [((h.sub (Frac.ofInt 30)).pymod (Frac.ofInt 360), s, v),
       (h, s, v),
       ((h.add (Frac.ofInt 30)).pymod (Frac.ofInt 360), s, v)].map hsvDegToRgb
    triadic :=
      [((h.add (Frac.ofInt 120)).pymod (Frac.ofInt 360), s, v),
       (h, s, v),
       ((h.add (Frac.ofInt 240)).pymod (Frac.ofInt 360), s, v)].map hsvDegToRgb
    tetradic :=
      [(h, s, v),
       ((h.add (Frac.ofInt 90)).pymod (Frac.ofInt 360), s, v),
       ((h.add (Frac.ofInt 180)).pymod (Frac.ofInt 360), s, v),
       ((h.add (Frac.ofInt 270)).pymod (Frac.ofInt 360), s, v)].map hsvDegToRgb }

/-- The base color's HSV with hue scaled to degrees, as computed at the top
of `find_harmonies`. -/
def baseHsvDeg (base : Nat × Nat × Nat) : Frac × Frac × Frac :=
  let hsv := rgb_to_hsv ((Frac.ofInt base.1).div (Frac.ofInt 255))
      ((Frac.ofInt base.2.1).div (Frac.ofInt 255))
      ((Frac.ofInt base.2.2).div (Frac.ofInt 255))
  (hsv.1.mul (Frac.ofInt 360), hsv.2.1, hsv.2.2)

/-- A harmony entry at the given hue (degrees), keeping the base's
saturation and value, and converted back to RGB by truncating
`component × 255` — the conversion the spec (§4.2 step 6) prescribes. -/
def atHue (b0 : Frac × Frac × Frac) (hh : Frac) : Int × Int × Int :=
  hsvDegToRgb (hh, b0.2.1, b0.2.2)

/-- Modelled from the spec's wording of §4.2 / claim C7: complementary is
one color at hue+180 mod 360; analogous is hue−30, hue, hue+30 in that
order; triadic is hue+120, hue, hue+240 in that order (base second);
tetradic is hue, hue+90, hue+180, hue+270 in that order; all with the
base's saturation and value. -/
def harmoniesSpec (base : Nat × Nat × Nat) : Harmonies :=
  let b0 := baseHsvDeg base
  let h := b0.1
  { complementary := [atHue b0 ((h.add (Frac.ofInt 180)).pymod (Frac.ofInt 360))]
    analogous := [atHue b0 ((h.sub (Frac.ofInt 30)).pymod (Frac.ofInt 360)),
                  atHue b0 h,
                  atHue b0 ((h.add (Frac.ofInt 30)).pymod (Frac.ofInt 360))]
    triadic := [atHue b0 ((h.add (Frac.ofInt 120)).pymod (Frac.ofInt 360)),
                atHue b0 h,
                atHue b0 ((h.add (Frac.ofInt 240)).pymod (Frac.ofInt 360))]
    tetradic := [atHue b0 h,
                 atHue b0 ((h.add (Frac.ofInt 90)).pymod (Frac.ofInt 360)),
                 atHue b0 ((h.add (Frac.ofInt 180)).pymod (Frac.ofInt 360)),
                 atHue b0 ((h.add (Frac.ofInt 270)).pymod (Frac.ofInt 360))] }

/-! ## ImageAnalyzer.analyze_image

The image-decoding step (`PIL.Image.open` + `convert('RGBA')` +
`getdata()`) is the external collaborator; the model takes the resulting
flat RGBA pixel list directly.  `filename`, `dimensions` and `format` are
copied from the file unchanged and play no role in any claim, so the
modelled `ImageInfo` carries only `colors` and `dominant_color`. -/

abbrev Pixel := Nat × Nat × Nat × Nat

def Pixel.r (p : Pixel) : Nat := p.1
def Pixel.g (p : Pixel) : Nat := p.2.1
def Pixel.b (p : Pixel) : Nat := p.2.2.1
def Pixel.a (p : Pixel) : Nat := p.2.2.2
def Pixel.rgb (p : Pixel) : Nat × Nat × Nat := (p.1, p.2.1, p.2.2.1)

structure ColorInfo where
  rgb : Nat × Nat × Nat
  hex : List Char
  cmyk : Int × Int × Int × Int
  frequency : Frac
  harmonies : Harmonies
deriving DecidableEq

structure ImageInfo where
  colors : List ColorInfo
  dominant_color : Option (Nat × Nat × Nat)
deriving DecidableEq

/-- One step of `collections.Counter`: count `p`, keeping keys in
first-occurrence order. -/
def bump (p : Pixel) : List (Pixel × Nat) → List (Pixel × Nat)
  | [] => [(p, 1)]
  | e :: t => if e.1 = p then (e.1, e.2 + 1) :: t else e :: bump p t

/-- `Counter(pixels)` as an association list in first-occurrence order. -/
def tally (ps : List Pixel) : List (Pixel × Nat) :=
  ps.foldl (fun acc p => bump p acc) []

/-- Stable insertion: place `a` before the first element it may precede.
`le a b = true` means `a` may come before `b`. -/
def insertOrd (le : α → α → Bool) (a : α) : List α → List α
  | [] => [a]
  | b :: t => if le a b then a :: b :: t else b :: insertOrd le a t

/-- Stable insertion sort; extensionally the unique stable sort by the
total preorder `le`, hence a faithful model of Python's stable sorts. -/
def sortOrd (le : α → α → Bool) : List α → List α
  | [] => []
  | a :: t => insertOrd le a (sortOrd le t)

/-- `Counter.most_common()`: stable sort, descending by count. -/
def most_common (ps : List Pixel) : List (Pixel × Nat) :=
  sortOrd (fun x y => decide (y.2 ≤ x.2)) (tally ps)

/-- `[(color, count) for color, count in sorted_colors if color[3] > 0]`. -/
def visible_colors (ps : List Pixel) : List (Pixel × Nat) :=
  (most_common ps).filter (fun e => decide (0 < e.1.a))

def hueKey (e : Pixel × Nat) : Frac :=
  (rgb_to_hsv ((Frac.ofInt e.1.r).div (Frac.ofInt 255))
    ((Frac.ofInt e.1.g).div (Frac.ofInt 255))
    ((Frac.ofInt e.1.b).div (Frac.ofInt 255))).1

def satKey (e : Pixel × Nat) : Frac :=
  (rgb_to_hsv ((Frac.ofInt e.1.r).div (Frac.ofInt 255))
    ((Frac.ofInt e.1.g).div (Frac.ofInt 255))
    ((Frac.ofInt e.1.b).div (Frac.ofInt 255))).2.1

def valKey (e : Pixel × Nat) : Frac :=
  (rgb_to_hsv ((Frac.ofInt e.1.r).div (Frac.ofInt 255))
    ((Frac.ofInt e.1.g).div (Frac.ofInt 255))
    ((Frac.ofInt e.1.b).div (Frac.ofInt 255))).2.2

/-- The `if sort_by != "frequency": ...` block: re-sort ascending by hue,
or descending by saturation or brightness; any other criterion (including
`"frequency"`) leaves the list as it is. -/
def apply_sort (sort_by : String) (l : List (Pixel × Nat)) : List (Pixel × Nat) :=
  if sort_by = "frequency" then l
  else if sort_by = "hue" then sortOrd (fun x y => (hueKey x).ble (hueKey y)) l
  else if sort_by = "saturation" then sortOrd (fun x y => (satKey y).ble (satKey x)) l
  else if sort_by = "brightness" then sortOrd (fun x y => (valKey y).ble (valKey x)) l
  else l

/-- The value of the local `sorted_colors` after the optional re-sort. -/
def sorted_visible (ps : List Pixel) (sort_by : String) : List (Pixel × Nat) :=
  apply_sort sort_by (visible_colors ps)

/-- Python `round(x, 2)` on the exact value: nearest multiple of 1/100,
ties to even. -/
def round2 (x : Frac) : Frac := ⟨rne (x.mul (Frac.ofInt 100)), 100⟩

/-- The `ColorInfo(...)` constructed in the loop body of `analyze_image`. -/
def mkColorInfo (p : Pixel) (count total : Nat) : ColorInfo :=
  { rgb := p.rgb
    hex := rgb_to_hex p.rgb
    cmyk := rgb_to_cmyk p.r p.g p.b
    frequency := round2 (((Frac.ofInt count).div (Frac.ofInt total)).mul (Frac.ofInt 100))
    harmonies := find_harmonies p.rgb }

/-- `ImageAnalyzer.analyze_image`, starting from the decoded RGBA pixel
list: total = `len(pixels)`; tally; `most_common`; filter out alpha 0;
optional re-sort; dominant color = head of the (re-sorted) list; then one
`ColorInfo` per remaining entry (the loop's `if a == 0: continue` is
retained even though the filter already removed those entries). -/
def analyze_image (ps : List Pixel) (sort_by : String) : ImageInfo :=
  let total := ps.length
  let sc := sorted_visible ps sort_by
  { colors := sc.filterMap (fun e => if e.1.a = 0 then none else some (mkColorInfo e.1 e.2 total))
    dominant_color := sc.head?.map (fun e => e.1.rgb) }

/-! ## Lemmas about the sorting / tallying pipeline -/

theorem insertOrd_perm (le : α → α → Bool) (a : α) (l : List α) :
    (insertOrd le a l).Perm (a :: l) := by
  induction l with
  | nil => exact List.Perm.refl _
  | cons b t ih =>
    unfold insertOrd
    by_cases h : le a b
    · simp [h]
    · simp only [h, if_false]
      exact (List.Perm.cons b ih).trans (List.Perm.swap a b t)

theorem sortOrd_perm (le : α → α → Bool) (l : List α) :
    (sortOrd le l).Perm l := by
  induction l with
  | nil => exact List.Perm.refl _
  | cons a t ih =>
    exact (insertOrd_perm le a (sortOrd le t)).trans (List.Perm.cons a ih)

theorem bump_keys (p : Pixel) :
    ∀ l : List (Pixel × Nat), (bump p l).map Prod.fst =
      if p ∈ l.map Prod.fst then l.map Prod.fst else l.map Prod.fst ++ [p] := by
  intro l
  induction l with
  | nil => simp [bump]
  | cons e t ih =>
    unfold bump
    by_cases he : e.1 = p
    · simp [he]
    · have hne : ¬ p = e.1 := fun h => he h.symm
      simp only [he, if_false, List.map_cons, ih, List.mem_cons, hne, false_or]
      by_cases hp : p ∈ t.map Prod.fst
      · simp [hp]
      · simp [hp]

theorem nodup_bump_keys {p : Pixel} {l : List (Pixel × Nat)}
    (h : (l.map Prod.fst).Nodup) : ((bump p l).map Prod.fst).Nodup := by
  rw [bump_keys]
  by_cases hp : p ∈ l.map Prod.fst
  · simpa [hp] using h
  · simp only [hp, if_false]
    rw [List.nodup_append]
    exact ⟨h, List.nodup_singleton p,
      fun a ha hb => by simp at hb; subst hb; exact hp ha⟩

theorem nodup_tally_keys (ps : List Pixel) :
    ((tally ps).map Prod.fst).Nodup := by
  have main : ∀ (l : List Pixel) (acc : List (Pixel × Nat)),
      (acc.map Prod.fst).Nodup →
      ((l.foldl (fun acc p => bump p acc) acc).map Prod.fst).Nodup := by
    intro l
    induction l with
    | nil => intro acc h; simpa using h
    | cons p t ih =>
      intro acc h
      exact ih (bump p acc) (nodup_bump_keys h)
  exact main ps [] (by simp)

theorem apply_sort_perm (crit : String) (l : List (Pixel × Nat)) :
    (apply_sort crit l).Perm l := by
  unfold apply_sort
  split_ifs <;> first
    | exact List.Perm.refl _
    | exact sortOrd_perm _ _

theorem sorted_visible_perm (ps : List Pixel) (crit : String) :
    (sorted_visible ps crit).Perm (visible_colors ps) :=
  apply_sort_perm crit (visible_colors ps)

theorem visible_alpha_pos {ps : List Pixel} {e : Pixel × Nat}
    (h : e ∈ visible_colors ps) : 0 < e.1.a := by
  unfold visible_colors at h
  have := (List.mem_filter.mp h).2
  simpa using this

theorem sorted_visible_alpha_pos {ps : List Pixel} {crit : String}
    {e : Pixel × Nat} (h : e ∈ sorted_visible ps crit) : 0 < e.1.a :=
  visible_alpha_pos ((sorted_visible_perm ps crit).mem_iff.mp h)

theorem nodup_sorted_visible_keys (ps : List Pixel) (crit : String) :
    ((sorted_visible ps crit).map Prod.fst).Nodup := by
  have h1 : ((most_common ps).map Prod.fst).Nodup := by
    have := (sortOrd_perm (fun x y => decide (y.2 ≤ x.2)) (tally ps)).map Prod.fst
    exact this.symm.nodup (nodup_tally_keys ps)
  have h2 : ((visible_colors ps).map Prod.fst).Nodup := by
    unfold visible_colors
    exact h1.sublist ((List.filter_sublist _).map Prod.fst)
  exact ((sorted_visible_perm ps crit).map Prod.fst).symm.nodup h2

theorem filterMap_alpha_eq_map (f : Pixel × Nat → ColorInfo) :
    ∀ (l : List (Pixel × Nat)), (∀ e ∈ l, e.1.a ≠ 0) →
      l.filterMap (fun e => if e.1.a = 0 then none else some (f e)) = l.map f := by
  intro l
  induction l with
  | nil => intro _; rfl
  | cons e t ih =>
    intro h
    have he : e.1.a ≠ 0 := h e (by simp)
    simp only [List.filterMap_cons, he, if_false, List.map_cons]
    rw [ih (fun x hx => h x (by simp [hx]))]

theorem colors_eq_map (ps : List Pixel) (crit : String) :
    (analyze_image ps crit).colors =
      (sorted_visible ps crit).map (fun e => mkColorInfo e.1 e.2 ps.length) := by
  show (sorted_visible ps crit).filterMap _ = _
  exact filterMap_alpha_eq_map _ _
    (fun e he => Nat.pos_iff_ne_zero.mp (sorted_visible_alpha_pos he))

theorem dominant_eq_head (ps : List Pixel) (crit : String) :
    (analyze_image ps crit).dominant_color =
      (sorted_visible ps crit).head?.map (fun e => e.1.rgb) := rfl

/-! ## Claims about `analyze_image` -/

/-- C8: for an empty pixel grid (empty pixel sequence; for a real image
width×height = 0 forces exactly this), `analyze_image` does not fail and
returns a well-formed result with an empty color list and no dominant
color, for every sort criterion. -/
theorem C8_empty_image_degenerate (crit : String) :
    analyze_image [] crit = ⟨[], none⟩ := by
  have h : sorted_visible [] crit = [] := by
    have hv : visible_colors [] = [] := rfl
    unfold sorted_visible apply_sort
    rw [hv]
    split_ifs <;> rfl
  unfold analyze_image
  rw [h]
  rfl

/-- C10: whenever the returned analysis has a non-empty color list, the
dominant color is present and equals the `rgb` field of the first record
of the (possibly re-sorted) color list. -/
theorem C10_dominant_is_head_rgb (ps : List Pixel) (crit : String)
    (rec : ColorInfo) (rest : List ColorInfo)
    (h : (analyze_image ps crit).colors = rec :: rest) :
    (analyze_image ps crit).dominant_color = some rec.rgb := by
  rw [colors_eq_map] at h
  rw [dominant_eq_head]
  cases hsv : sorted_visible ps crit with
  | nil => rw [hsv] at h; simp at h
  | cons e t =>
    rw [hsv] at h
    simp only [List.map_cons, List.cons.injEq] at h
    rw [← h.1]
    rfl

/-- Witness for C10 at a concrete one-pixel image. -/
theorem C10_dominant_is_head_rgb_witness :
    (analyze_image [(1, 2, 3, 255)] ("frequency")).dominant_color = some (1, 2, 3) :=
  C10_dominant_is_head_rgb [(1, 2, 3, 255)] ("frequency")
    (mkColorInfo (1, 2, 3, 255) 1 1) [] rfl

/-- C9: every record's frequency is `round(count/total × 100, 2)` with
`total` the full pixel count `len(pixels)` — including fully transparent
pixels — and in the 2×1 scenario with one red pixel and one fully
transparent pixel the single visible entry has frequency 50.00 (not 100)
and is the dominant color.  (`Frac.beq` compares exact values.) -/
theorem C9_frequency_denominator_total :
    (∀ (ps : List Pixel) (crit : String),
      (analyze_image ps crit).colors.map ColorInfo.frequency =
        (sorted_visible ps crit).map
          (fun e => round2 (((Frac.ofInt e.2).div (Frac.ofInt ps.length)).mul (Frac.ofInt 100)))) ∧
    (analyze_image [(255, 0, 0, 255), (0, 0, 0, 0)] ("frequency")).colors.map
        (fun ci => (ci.rgb, ci.frequency.beq (Frac.ofInt 50))) = [((255, 0, 0), true)] ∧
    (analyze_image [(255, 0, 0, 255), (0, 0, 0, 0)] ("frequency")).dominant_color =
      some (255, 0, 0) := by
  refine ⟨fun ps crit => ?_, by decide, by decide⟩
  rw [colors_eq_map, List.map_map]
  rfl

/-- C2 is false on the code: the color list keys records by the full RGBA
tuple, so two pixels with the same RGB but different nonzero alphas yield
TWO records with the same `rgb` field (frequencies not merged), not one. -/
theorem C2_counterexample_alpha_not_merged :
    (analyze_image [(255, 0, 0, 255), (255, 0, 0, 128)] ("frequency")).colors.map
      ColorInfo.rgb = [(255, 0, 0), (255, 0, 0)] := by decide

/-- C2 (amended): the color list contains exactly one record per distinct
*visible RGBA tuple* (in list order; RGBA keys are pairwise distinct),
every listed entry has alpha > 0 (alpha-0 pixels are excluded entirely),
and each record is built from that entry's own count — counts are *not*
summed across alpha variants sharing an RGB triple. -/
theorem C2_amended_rgba_keys (ps : List Pixel) (crit : String) :
    ((sorted_visible ps crit).map Prod.fst).Nodup ∧
    (sorted_visible ps crit).all (fun e => decide (0 < e.1.a)) = true ∧
    (analyze_image ps crit).colors =
      (sorted_visible ps crit).map (fun e => mkColorInfo e.1 e.2 ps.length) := by
  refine ⟨nodup_sorted_visible_keys ps crit, ?_, colors_eq_map ps crit⟩
  rw [List.all_eq_true]
  intro e he
  simpa using sorted_visible_alpha_pos he

/-- C1 is false on the code (and the code contradicts its own comment
"Set dominant color (most frequent non-transparent color)"): the dominant
color is taken from the head of the list *after* the requested re-sort, so
sorting by brightness changes it.  On two dark-gray pixels plus one white
pixel, frequency ordering makes the dominant (10,10,10) while brightness
ordering makes it (255,255,255). -/
theorem C1_dominant_changes_with_sort :
    (analyze_image [(10, 10, 10, 255), (10, 10, 10, 255), (255, 255, 255, 255)]
        ("brightness")).dominant_color = some (255, 255, 255) ∧
    (analyze_image [(10, 10, 10, 255), (10, 10, 10, 255), (255, 255, 255, 255)]
        ("frequency")).dominant_color = some (10, 10, 10) := by
  constructor <;> decide

/-! ## Lemmas about hex parsing and formatting -/

theorem hexB_char_facts (c : Char) (h : hexDigitB c = true) :
    c ≠ '+' ∧ c ≠ '-' ∧ c ≠ '#' ∧ wsChar c = false := by
  refine ⟨fun he => ?_, fun he => ?_, fun he => ?_, ?_⟩
  · subst he; revert h; decide
  · subst he; revert h; decide
  · subst he; revert h; decide
  · have key : wsChar c = true → False := by
      intro hw
      simp only [wsChar, Char.isWhitespace, Bool.or_eq_true, decide_eq_true_eq] at hw
      rcases hw with ((h1 | h1) | h1) | h1 <;> (subst h1; revert h; decide)
    cases hweq : wsChar c
    · rfl
    · exact absurd (key hweq) (fun x => x)

theorem dropWhile_eq_self_of {p : Char → Bool} :
    ∀ {l : List Char}, (∀ c ∈ l, p c = false) → l.dropWhile p = l := by
  intro l
  induction l with
  | nil => intro _; rfl
  | cons c t _ =>
    intro h
    rw [List.dropWhile_cons, h c (by simp)]
    simp

theorem trimWS_eq_self {l : List Char} (h : ∀ c ∈ l, wsChar c = false) :
    trimWS l = l := by
  unfold trimWS
  rw [dropWhile_eq_self_of h,
    dropWhile_eq_self_of (fun c hc => h c (List.mem_reverse.mp hc)),
    List.reverse_reverse]

theorem hexCore_isSome :
    ∀ (l : List Char) (acc : Nat), l.all hexDigitB = true →
      (hexCore l acc).isSome = true := by
  intro l
  induction l with
  | nil => intro acc _; rfl
  | cons c t ih =>
    intro acc hall
    simp only [List.all_cons, Bool.and_eq_true] at hall
    obtain ⟨v, hv⟩ := Option.isSome_iff_exists.mp hall.1
    unfold hexCore
    rw [hv]
    exact ih _ hall.2

theorem pyIntHex_eq_of_hex {l : List Char} (hall : l.all hexDigitB = true) :
    pyIntHex l = (hexDigits? l).map (fun v : Nat => (v : Int)) := by
  have htrim : trimWS l = l := trimWS_eq_self (fun c hc =>
    (hexB_char_facts c ((List.all_eq_true.mp hall) c hc)).2.2.2)
  unfold pyIntHex
  rw [htrim]
  cases l with
  | nil => rfl
  | cons c t =>
    have hc : hexDigitB c = true := by
      simpa using (List.all_eq_true.mp hall) c (by simp)
    have h1 : c ≠ '+' := (hexB_char_facts c hc).1
    have h2 : c ≠ '-' := (hexB_char_facts c hc).2.1
    split
    · rename_i heq; simp only [List.cons.injEq] at heq; simp_all
    · rename_i heq; simp only [List.cons.injEq] at heq; simp_all
    · rfl

theorem pyIntHex_isSome_of_hex {l : List Char} (hall : l.all hexDigitB = true)
    (hne : l ≠ []) : (pyIntHex l).isSome = true := by
  rw [pyIntHex_eq_of_hex hall]
  cases l with
  | nil => exact absurd rfl hne
  | cons c t =>
    obtain ⟨v, hv⟩ := Option.isSome_iff_exists.mp (hexCore_isSome (c :: t) 0 hall)
    show ((hexCore (c :: t) 0).map (fun v : Nat => (v : Int))).isSome = true
    rw [hv]
    rfl

theorem pySlice_all {p : Char → Bool} {l : List Char} (h : l.all p = true)
    (i k : Nat) : (pySlice l i k).all p = true := by
  rw [List.all_eq_true] at h ⊢
  intro c hc
  exact h c (List.mem_of_mem_drop (List.mem_of_mem_take hc))

theorem pad2hex_facts : ∀ n, n ≤ 255 → ((pad2hex n).length = 2 ∧
    (pad2hex n).all lowHexB = true ∧ pyIntHex (pad2hex n) = some (n : Int)) := by
  decide

theorem lowHex_ne_hash {c : Char} (h : lowHexB c = true) : ¬(c = '#') := by
  intro he; subst he; revert h; decide

/-- The core of the hex round trip: parsing `'#'` followed by three
two-character lowercase-hex blocks yields the three parsed values. -/
theorem hex_round_core (A B C : List Char) (x y z : Int)
    (hA : A.length = 2) (hB : B.length = 2) (hC : C.length = 2)
    (aA : A.all lowHexB = true)
    (pa : pyIntHex A = some x) (pb : pyIntHex B = some y)
    (pc : pyIntHex C = some z) :
    hex_to_rgb ('#' :: (A ++ B ++ C)) = some (x, y, z) := by
  obtain ⟨a0, a1, rfl⟩ := List.length_eq_two.mp hA
  have h0 : lowHexB a0 = true := by
    simpa using (List.all_eq_true.mp aA) a0 (by simp)
  have hdrop : ('#' :: ([a0, a1] ++ B ++ C)).dropWhile (fun c => decide (c = '#')) =
      [a0, a1] ++ B ++ C := by
    simp [List.dropWhile_cons, lowHex_ne_hash h0]
  have s1 : pySlice ([a0, a1] ++ B ++ C) 0 2 = [a0, a1] := by
    show List.take 2 (List.drop 0 ([a0, a1] ++ (B ++ C))) = [a0, a1]
    rw [List.drop_zero, show (2 : Nat) = ([a0, a1] : List Char).length from rfl,
      List.take_left]
  have s2 : pySlice ([a0, a1] ++ B ++ C) 2 2 = B := by
    show List.take 2 (List.drop 2 ([a0, a1] ++ (B ++ C))) = B
    rw [show (List.drop 2 ([a0, a1] ++ (B ++ C))) = B ++ C from rfl,
      ← hB, List.take_left]
  have s3 : pySlice ([a0, a1] ++ B ++ C) 4 2 = C := by
    show List.take 2 (List.drop 4 ([a0, a1] ++ (B ++ C))) = C
    have h4 : (4 : Nat) = ([a0, a1] ++ B).length := by
      simp [List.length_append, hB]
    calc List.take 2 (List.drop 4 ([a0, a1] ++ (B ++ C)))
        = List.take 2 (List.drop (([a0, a1] ++ B).length) (([a0, a1] ++ B) ++ C)) := by
          rw [← h4, List.append_assoc]
      _ = List.take 2 C := by rw [List.drop_left]
      _ = C := by rw [← hC, List.take_length]
  show hex_to_rgb _ = _
  unfold hex_to_rgb
  rw [hdrop]
  unfold hexTriple
  rw [s1, s2, s3, pa, pb, pc]

/-- C5: the hex round trip holds: for channels in [0,255],
`hex_to_rgb (rgb_to_hex c) = c`. -/
theorem C5_hex_rgb_roundtrip (r g b : Nat)
    (hr : r ≤ 255) (hg : g ≤ 255) (hb : b ≤ 255) :
    hex_to_rgb (rgb_to_hex (r, g, b)) = some ((r : Int), (g : Int), (b : Int)) := by
  obtain ⟨lr, ar, pr⟩ := pad2hex_facts r hr
  obtain ⟨lg, _, pg⟩ := pad2hex_facts g hg
  obtain ⟨lb, _, pb⟩ := pad2hex_facts b hb
  exact hex_round_core (pad2hex r) (pad2hex g) (pad2hex b) _ _ _ lr lg lb ar pr pg pb

/-- Witness for C5 at the concrete color (250, 0, 77). -/
theorem C5_hex_rgb_roundtrip_witness :
    hex_to_rgb (rgb_to_hex (250, 0, 77)) = some (250, 0, 77) :=
  C5_hex_rgb_roundtrip 250 0 77 (by decide) (by decide) (by decide)

/-- C4 is false on the code: `rgb_to_hex` emits a `'#'` prefix, so the
result has 7 characters, not 6. -/
theorem C4_counterexample_hash :
    rgb_to_hex (0, 0, 0) = ("#000000".toList) ∧
    (rgb_to_hex (0, 0, 0)).length ≠ 6 := by decide

/-- C4 (amended): for channels in [0,255] the result is exactly `'#'`
followed by 6 lowercase hex digits, each channel zero-padded to two
digits. -/
theorem C4_amended_hash_then_six (r g b : Nat)
    (hr : r ≤ 255) (hg : g ≤ 255) (hb : b ≤ 255) :
    ∃ t, rgb_to_hex (r, g, b) = '#' :: t ∧ t.length = 6 ∧
      t.all lowHexB = true := by
  obtain ⟨lr, ar, _⟩ := pad2hex_facts r hr
  obtain ⟨lg, ag, _⟩ := pad2hex_facts g hg
  obtain ⟨lb, ab, _⟩ := pad2hex_facts b hb
  refine ⟨pad2hex r ++ pad2hex g ++ pad2hex b, rfl, ?_, ?_⟩
  · simp [List.length_append, lr, lg, lb]
  · simp [List.all_append, ar, ag, ab]

/-- Witness for C4 (amended) at the concrete color (0, 171, 255). -/
theorem C4_amended_hash_then_six_witness :
    ∃ t, rgb_to_hex (0, 171, 255) = '#' :: t ∧ t.length = 6 ∧
      t.all lowHexB = true :=
  C4_amended_hash_then_six 0 171 255 (by decide) (by decide) (by decide)

/-- C3 is false on the code: a 7-character hex string does not fail —
the first six characters are parsed and the rest ignored. -/
theorem C3_counterexample_length7 :
    ("1234567".toList).length = 7 ∧
    hex_to_rgb ("1234567".toList) = some (18, 52, 86) := by decide

/-- C3 (amended): every leading `'#'` is stripped (so `'#'` is accepted,
and more than one as well); on a string of hex digits the call succeeds
iff the length is at least 5 — each of the three 2-character slices at
positions 0, 2, 4 must parse, extra characters after the 6th are ignored
(and at length exactly 5 the third group is the single 5th digit) — and on
exactly 6 hex digits it returns the triple encoded by the three 2-digit
groups. -/
theorem C3_amended_slice_parsing :
    (∀ s : List Char, hex_to_rgb ('#' :: s) = hex_to_rgb s) ∧
    (∀ s : List Char, s.all hexDigitB = true →
      ((hex_to_rgb s).isSome = true ↔ 5 ≤ s.length)) ∧
    (∀ c1 c2 c3 c4 c5 c6 : Char,
      ([c1, c2, c3, c4, c5, c6] : List Char).all hexDigitB = true →
      hex_to_rgb [c1, c2, c3, c4, c5, c6] =
        some (((16 * (hexDigitVal c1).getD 0 + (hexDigitVal c2).getD 0 : Nat) : Int),
              ((16 * (hexDigitVal c3).getD 0 + (hexDigitVal c4).getD 0 : Nat) : Int),
              ((16 * (hexDigitVal c5).getD 0 + (hexDigitVal c6).getD 0 : Nat) : Int))) := by
  refine ⟨fun s => ?_, fun s hall => ?_, fun c1 c2 c3 c4 c5 c6 hall => ?_⟩
  · unfold hex_to_rgb
    rw [List.dropWhile_cons]
    simp
  · have hdrop : s.dropWhile (fun c => decide (c = '#')) = s :=
      dropWhile_eq_self_of (fun c hc => by
        simp [(hexB_char_facts c ((List.all_eq_true.mp hall) c hc)).2.2.1])
    constructor
    · intro hsome
      by_contra hlen
      push_neg at hlen
      have h3 : pySlice s 4 2 = [] := by
        have hd : s.drop 4 = [] := List.drop_eq_nil_iff.mpr (by omega)
        simp [pySlice, hd]
      have hnone : pyIntHex (pySlice s 4 2) = none := by rw [h3]; rfl
      unfold hex_to_rgb at hsome
      rw [hdrop] at hsome
      unfold hexTriple at hsome
      rcases ha : pyIntHex (pySlice s 0 2) with _ | x <;>
        rcases hb : pyIntHex (pySlice s 2 2) with _ | y <;>
          rw [ha, hb, hnone] at hsome <;> simp at hsome
    · intro hlen
      have hne : s ≠ [] := by
        intro he; rw [he] at hlen; simp at hlen
      have hne0 : pySlice s 0 2 ≠ [] := by
        intro he
        exact hne (by simpa [pySlice] using he)
      have hne2 : pySlice s 2 2 ≠ [] := by
        intro he
        have h2 : s.length ≤ 2 := by simpa [pySlice] using he
        omega
      have hne4 : pySlice s 4 2 ≠ [] := by
        intro he
        have h4 : s.length ≤ 4 := by simpa [pySlice] using he
        omega
      obtain ⟨x, hx⟩ := Option.isSome_iff_exists.mp
        (pyIntHex_isSome_of_hex (pySlice_all hall 0 2) hne0)
      obtain ⟨y, hy⟩ := Option.isSome_iff_exists.mp
        (pyIntHex_isSome_of_hex (pySlice_all hall 2 2) hne2)
      obtain ⟨z, hz⟩ := Option.isSome_iff_exists.mp
        (pyIntHex_isSome_of_hex (pySlice_all hall 4 2) hne4)
      unfold hex_to_rgb
      rw [hdrop]
      unfold hexTriple
      rw [hx, hy, hz]
      rfl
  · simp only [List.all_cons, Bool.and_eq_true] at hall
    obtain ⟨h1, h2, h3, h4, h5, h6, _⟩ := hall
    obtain ⟨v1, hv1⟩ := Option.isSome_iff_exists.mp h1
    obtain ⟨v2, hv2⟩ := Option.isSome_iff_exists.mp h2
    obtain ⟨v3, hv3⟩ := Option.isSome_iff_exists.mp h3
    obtain ⟨v4, hv4⟩ := Option.isSome_iff_exists.mp h4
    obtain ⟨v5, hv5⟩ := Option.isSome_iff_exists.mp h5
    obtain ⟨v6, hv6⟩ := Option.isSome_iff_exists.mp h6
    have hdrop : ([c1, c2, c3, c4, c5, c6] : List Char).dropWhile
        (fun c => decide (c = '#')) = [c1, c2, c3, c4, c5, c6] :=
      dropWhile_eq_self_of (fun c hc => by
        simp only [List.mem_cons, List.not_mem_nil, or_false] at hc
        have hcB : hexDigitB c = true := by
          rcases hc with rfl | rfl | rfl | rfl | rfl | rfl <;> assumption
        simp [(hexB_char_facts c hcB).2.2.1])
    have e1 : pyIntHex [c1, c2] = some ((16 * v1 + v2 : Nat) : Int) := by
      rw [pyIntHex_eq_of_hex (by simp [List.all_cons, h1, h2])]
      show ((hexCore [c1, c2] 0).map _) = _
      simp only [hexCore, hv1, hv2]
      norm_num
    have e2 : pyIntHex [c3, c4] = some ((16 * v3 + v4 : Nat) : Int) := by
      rw [pyIntHex_eq_of_hex (by simp [List.all_cons, h3, h4])]
      show ((hexCore [c3, c4] 0).map _) = _
      simp only [hexCore, hv3, hv4]
      norm_num
    have e3 : pyIntHex [c5, c6] = some ((16 * v5 + v6 : Nat) : Int) := by
      rw [pyIntHex_eq_of_hex (by simp [List.all_cons, h5, h6])]
      show ((hexCore [c5, c6] 0).map _) = _
      simp only [hexCore, hv5, hv6]
      norm_num
    have s1 : pySlice [c1, c2, c3, c4, c5, c6] 0 2 = [c1, c2] := rfl
    have s2 : pySlice [c1, c2, c3, c4, c5, c6] 2 2 = [c3, c4] := rfl
    have s3 : pySlice [c1, c2, c3, c4, c5, c6] 4 2 = [c5, c6] := rfl
    unfold hex_to_rgb
    rw [hdrop]
    unfold hexTriple
    rw [s1, s2, s3, e1, e2, e3]
    simp [hv1, hv2, hv3, hv4, hv5, hv6]

/-- Witness for C3 (amended) on the concrete 6-digit string `"a1b2c3"`. -/
theorem C3_amended_slice_parsing_witness :
    (("a1b2c3".toList).all hexDigitB = true) ∧
    hex_to_rgb ("a1b2c3".toList) = some (161, 178, 195) := by
  refine ⟨by decide, ?_⟩
  exact C3_amended_slice_parsing.2.2 'a' '1' 'b' '2' 'c' '3' (by decide)

/-- C6 is false on the code: at (r,g,b) = (14,16,16) the exact cyan
percentage is exactly 12.5 = 12 + 0.5, so round-half-away-from-zero would
give 13; the code returns 12 (the double-precision value computed by
Python drops just below 12.5, and Python 3's `round` is half-to-even
besides). -/
theorem C6_counterexample_half_percent :
    (cmyk_exact_percent 14 16 16).1 = 25 / 2 ∧
    (rgb_to_cmyk 14 16 16).1 ≠ 13 := by
  constructor
  · simp only [cmyk_exact_percent]
    norm_num [min_def]
  · decide

/-- C6 (amended): the non-black branch scales the normalized channels to
percentages and rounds each with Python 3 `round` — round-half-to-even
applied to the IEEE-754 double actually computed — so an exact-half
percentage need not round away from zero: (14,16,16) yields c = 12 even
though its exact c-percentage is 12.5.  Reference points: black and white
map to (0,0,0,100) and (0,0,0,0), and pure red to (0,100,100,0). -/
theorem C6_amended_round_on_doubles :
    rgb_to_cmyk 14 16 16 = (12, 0, 0, 94) ∧
    rgb_to_cmyk 0 0 0 = (0, 0, 0, 100) ∧
    rgb_to_cmyk 255 255 255 = (0, 0, 0, 0) ∧
    rgb_to_cmyk 255 0 0 = (0, 100, 100, 0) := by
  refine ⟨by decide, by decide, by decide, by decide⟩

/-- C7: for every base color, `find_harmonies` produces exactly the four
harmony kinds of the spec — complementary one color at hue+180 mod 360;
analogous hue−30, hue, hue+30 in that order; triadic hue+120, hue, hue+240
in that order (base second); tetradic hue, hue+90, hue+180, hue+270 in
that order — all with the base's saturation and value, each converted back
to RGB by truncating `component × 255`, with list lengths 1, 3, 3, 4. -/
theorem C7_harmonies_match_spec (base : Nat × Nat × Nat) :
    find_harmonies base = harmoniesSpec base ∧
    (find_harmonies base).complementary.length = 1 ∧
    (find_harmonies base).analogous.length = 3 ∧
    (find_harmonies base).triadic.length = 3 ∧
    (find_harmonies base).tetradic.length = 4 := by
  exact ⟨rfl, rfl, rfl, rfl, rfl⟩
